import Mathlib

/-!
Verification of the rustchain node engine against its specification.

The development shallowly embeds the Rust sources (src/transaction.rs,
src/block.rs, src/state_machine.rs, src/mempool.rs, src/consensus.rs,
src/storage.rs, src/main.rs). Byte strings are `List Nat` (each entry a
byte value), machine integers are `Nat` with explicit reduction modulo
2^64 where the Rust u64 arithmetic wraps, and fallible Rust functions
return `Except`/`Option`. SHA-256 (the sha2 crate primitive the sources
call) is implemented concretely below, following FIPS 180-4, so that
every hash-level statement is executable.
-/

set_option maxRecDepth 100000

namespace RustChain

/-- A byte string: a list of byte values (each < 256 in well-formed data). -/
abbrev Bytes := List Nat

/-- Little-endian byte rendering of `v` on `n` bytes. -/
def leBytes (n v : Nat) : Bytes :=
  (List.range n).map (fun i => (v >>> (8 * i)) &&& 255)

/-- Big-endian byte rendering of `v` on `n` bytes. -/
def beBytes (n v : Nat) : Bytes :=
  (List.range n).map (fun i => (v >>> (8 * (n - 1 - i))) &&& 255)

/-- The bincode 2 standard-configuration varint encoding of an unsigned
64-bit integer: values below 251 are a single byte; then marker 251 with
a 16-bit little-endian payload, marker 252 with 32 bits, marker 253 with
64 bits. -/
def varint (v : Nat) : Bytes :=
  if v < 251 then [v]
  else if v < 65536 then 251 :: leBytes 2 v
  else if v < 4294967296 then 252 :: leBytes 4 v
  else 253 :: leBytes 8 v

/-! ## SHA-256 (FIPS 180-4), the sha2 crate primitive used by the sources -/

/-- 32-bit mask applied after every SHA-256 arithmetic step. -/
def mask32 (x : Nat) : Nat := x &&& 4294967295

/-- 32-bit addition. -/
def add32 (a b : Nat) : Nat := (a + b) % 4294967296

/-- Rotate a 32-bit word right by `n`. -/
def rotr (n x : Nat) : Nat := mask32 ((x >>> n) ||| (x <<< (32 - n)))

/-- SHA-256 small sigma 0. -/
def ssig0 (x : Nat) : Nat := (rotr 7 x) ^^^ (rotr 18 x) ^^^ (x >>> 3)

/-- SHA-256 small sigma 1. -/
def ssig1 (x : Nat) : Nat := (rotr 17 x) ^^^ (rotr 19 x) ^^^ (x >>> 10)

/-- SHA-256 big Sigma 0. -/
def bsig0 (x : Nat) : Nat := (rotr 2 x) ^^^ (rotr 13 x) ^^^ (rotr 22 x)

/-- SHA-256 big Sigma 1. -/
def bsig1 (x : Nat) : Nat := (rotr 6 x) ^^^ (rotr 11 x) ^^^ (rotr 25 x)

/-- SHA-256 choice function. -/
def chFn (x y z : Nat) : Nat := (x &&& y) ^^^ ((x ^^^ 4294967295) &&& z)

/-- SHA-256 majority function. -/
def majFn (x y z : Nat) : Nat := (x &&& y) ^^^ (x &&& z) ^^^ (y &&& z)

/-- The 64 SHA-256 round constants of FIPS 180-4, written in decimal. -/
def shaK : List Nat :=
  [1116352408, 1899447441, 3049323471, 3921009573,
   961987163, 1508970993, 2453635748, 2870763221,
   3624381080, 310598401, 607225278, 1426881987,
   1925078388, 2162078206, 2614888103, 3248222580,
   3835390401, 4022224774, 264347078, 604807628,
   770255983, 1249150122, 1555081692, 1996064986,
   2554220882, 2821834349, 2952996808, 3210313671,
   3336571891, 3584528711, 113926993, 338241895,
   666307205, 773529912, 1294757372, 1396182291,
   1695183700, 1986661051, 2177026350, 2456956037,
   2730485921, 2820302411, 3259730800, 3345764771,
   3516065817, 3600352804, 4094571909, 275423344,
   430227734, 506948616, 659060556, 883997877,
   958139571, 1322822218, 1537002063, 1747873779,
   1955562222, 2024104815, 2227730452, 2361852424,
   2428436474, 2756734187, 3204031479, 3329325298]

/-- Working state of the SHA-256 compression function. -/
structure ShaState where
  a : Nat
  b : Nat
  c : Nat
  d : Nat
  e : Nat
  f : Nat
  g : Nat
  h : Nat
deriving DecidableEq

/-- The SHA-256 initial hash value of FIPS 180-4, written in decimal. -/
def shaH0 : ShaState :=
  ⟨1779033703, 3144134277, 1013904242, 2773480762,
   1359893119, 2600822924, 528734635, 1541459225⟩

/-- One step of the SHA-256 message-schedule extension: appends word
`W[t]` computed from `W[t-2]`, `W[t-7]`, `W[t-15]`, `W[t-16]`. -/
def stepW (w : List Nat) : List Nat :=
  let t := w.length
  w ++ [(ssig1 (w.getD (t - 2) 0) + w.getD (t - 7) 0 +
         ssig0 (w.getD (t - 15) 0) + w.getD (t - 16) 0) % 4294967296]

/-- Iterate the message-schedule extension `n` times. -/
def extendW : Nat → List Nat → List Nat
  | 0, w => w
  | n + 1, w => extendW n (stepW w)

/-- One SHA-256 round with round constant `kt` and schedule word `wt`. -/
def shaRound (s : ShaState) (kt wt : Nat) : ShaState :=
  let t1 := (s.h + bsig1 s.e + chFn s.e s.f s.g + kt + wt) % 4294967296
  let t2 := (bsig0 s.a + majFn s.a s.b s.c) % 4294967296
  ⟨add32 t1 t2, s.a, s.b, s.c, add32 s.d t1, s.e, s.f, s.g⟩

/-- SHA-256 compression of one 16-word block into the chaining state. -/
def shaCompress (st : ShaState) (block : List Nat) : ShaState :=
  let sched := extendW 48 block
  let t := (List.zip shaK sched).foldl (fun s kw => shaRound s kw.1 kw.2) st
  ⟨add32 st.a t.a, add32 st.b t.b, add32 st.c t.c, add32 st.d t.d,
   add32 st.e t.e, add32 st.f t.f, add32 st.g t.g, add32 st.h t.h⟩

/-- SHA-256 padding: append 0x80, zero bytes up to 56 mod 64, then the
bit length on 8 big-endian bytes. -/
def padMessage (msg : Bytes) : Bytes :=
  let l := msg.length
  let k := (119 - l % 64) % 64
  msg ++ [128] ++ List.replicate k 0 ++ beBytes 8 (l * 8)

/-- Group bytes into big-endian 32-bit words. -/
def toWords : Bytes → List Nat
  | a :: b :: c :: d :: rest => (((a * 256 + b) * 256 + c) * 256 + d) :: toWords rest
  | _ => []

/-- Split a word list into 16-word blocks; the fuel argument bounds the
recursion and any length of the list suffices. -/
def toBlocks : Nat → List Nat → List (List Nat)
  | 0, _ => []
  | _ + 1, [] => []
  | n + 1, ws => ws.take 16 :: toBlocks n (ws.drop 16)

/-- SHA-256 of a byte string, producing the 32-byte digest. -/
def sha256 (msg : Bytes) : Bytes :=
  let ws := toWords (padMessage msg)
  let final := (toBlocks ws.length ws).foldl shaCompress shaH0
  ([final.a, final.b, final.c, final.d, final.e, final.f, final.g, final.h].map (beBytes 4)).flatten

deriving instance DecidableEq for Except

/-! ## Core data model (src/types.rs, src/transaction.rs, src/block.rs) -/

/-- 2^64, the modulus of Rust u64 wrapping arithmetic. -/
def u64Mod : Nat := 18446744073709551616

/-- Transaction (src/transaction.rs): sender public key (32 bytes),
recipient address (32 bytes), u64 amount, u64 nonce, signature bytes. -/
structure Transaction where
  sender : Bytes
  recipient : Bytes
  amount : Nat
  nonce : Nat
  signature : Bytes
deriving DecidableEq

/-- bincode standard-config encoding of `TransactionSignablePayload`
(sender, recipient, amount, nonce): 32-byte arrays are raw bytes, u64
fields are varint. The signature is not part of this payload. -/
def encodeSignablePayload (tx : Transaction) : Bytes :=
  tx.sender ++ tx.recipient ++ varint tx.amount ++ varint tx.nonce

/-- bincode standard-config encoding of the full `Transaction` struct,
field by field in declaration order; the trailing signature byte vector
is length-prefixed. -/
def encodeTransaction (tx : Transaction) : Bytes :=
  tx.sender ++ tx.recipient ++ varint tx.amount ++ varint tx.nonce ++
    varint tx.signature.length ++ tx.signature

/-- `Transaction::data_to_sign_hash`: SHA-256 of the signable payload
(signature excluded). Encoding of these field shapes cannot fail, so the
Rust `anyhow::Result` is modelled as total. -/
def Transaction.data_to_sign_hash (tx : Transaction) : Bytes :=
  sha256 (encodeSignablePayload tx)

/-- `Transaction::id`: SHA-256 of the bincode encoding of the entire
transaction, its `signature` field included (the Rust code serializes
`self`). -/
def Transaction.id (tx : Transaction) : Bytes :=
  sha256 (encodeTransaction tx)

/-- BlockHeader (src/block.rs). -/
structure BlockHeader where
  parent_hash : Bytes
  block_number : Nat
  timestamp : Nat
  tx_root : Bytes
  validator : Bytes
  signature : Bytes
deriving DecidableEq

/-- bincode standard-config encoding of a `BlockHeader`, fields in
declaration order; the signature byte vector is length-prefixed. -/
def encodeHeader (h : BlockHeader) : Bytes :=
  h.parent_hash ++ varint h.block_number ++ varint h.timestamp ++
    h.tx_root ++ h.validator ++ varint h.signature.length ++ h.signature

/-- `BlockHeader::calculate_hash`: clone the header, blank the signature
to the empty byte vector, bincode-encode, SHA-256. -/
def BlockHeader.calculate_hash (h : BlockHeader) : Bytes :=
  sha256 (encodeHeader { h with signature := [] })

/-- Block (src/block.rs): header plus ordered transactions. -/
structure Block where
  header : BlockHeader
  transactions : List Transaction
deriving DecidableEq

/-! ## Merkle root (src/block.rs, `calculate_merkle_root`) -/

/-- One level of the Merkle loop: `chunks(2)` over an even-length list,
hashing the concatenation of each pair (the code indexes `chunk[0]` and
`chunk[1]`; every level it runs on has even length). -/
def chunkPairs : List Bytes → List Bytes
  | left :: right :: rest => sha256 (left ++ right) :: chunkPairs rest
  | _ => []

/-- Duplicate the last hash of a level (`push(last)` in the code). -/
def padLast (l : List Bytes) : List Bytes := l ++ [l.getLastD []]

/-- The `while current_level_hashes.len() > 1` loop: hash pairs, then
duplicate the last element if the new level is odd and longer than one.
The fuel argument only bounds the recursion; the initial level length is
always enough fuel since each iteration at least halves the length. -/
def merkleLoop : Nat → List Bytes → List Bytes
  | 0, l => l
  | fuel + 1, l =>
      if 1 < l.length then
        let next := chunkPairs l
        let next2 := if next.length % 2 ≠ 0 ∧ 1 < next.length then padLast next else next
        merkleLoop fuel next2
      else l

/-- `calculate_merkle_root`: SHA-256 of the empty string for no
transactions; SHA-256(id ‖ id) for a single transaction; otherwise pad
the id list to even length and run the pairing loop, returning the one
remaining hash (`pop()`). -/
def calculate_merkle_root (txs : List Transaction) : Bytes :=
  if txs.isEmpty then sha256 []
  else
    let ids := txs.map Transaction.id
    if ids.length = 1 then sha256 (ids.headD [] ++ ids.headD [])
    else
      let l0 := if ids.length % 2 ≠ 0 then padLast ids else ids
      (merkleLoop l0.length l0).getLastD []

/-- Modelled from the spec (refinement reference for the Merkle claim):
"hash each transaction to its ID; if empty, return SHA-256(''); if one
ID, return SHA-256(id‖id); otherwise pair-wise hash concatenations,
duplicating the last element at any level whose length is odd (except
when reduced to a single hash); repeat until one hash remains." The loop
here duplicates before pairing, exactly as the sentence reads. -/
def merkleSpecLoop : Nat → List Bytes → List Bytes
  | 0, l => l
  | fuel + 1, l =>
      if 1 < l.length then
        merkleSpecLoop fuel (chunkPairs (if l.length % 2 ≠ 0 then padLast l else l))
      else l

/-- Modelled from the spec: the Merkle root as the spec sentence
describes it, over the list of transaction IDs. -/
def merkle_root_spec (txs : List Transaction) : Bytes :=
  let ids := txs.map Transaction.id
  if ids.isEmpty then sha256 []
  else if ids.length = 1 then sha256 (ids.headD [] ++ ids.headD [])
  else (merkleSpecLoop ids.length ids).headD []

/-! ## State machine (src/state_machine.rs) -/

/-- Modelled from the spec: `address_from_public_key` is imported from
`crate::wallet` by state_machine.rs and consensus.rs but its definition
is not among the provided sources. The spec fixes it: "address
derivation = identity on public key bytes". -/
def address_from_public_key (pk : Bytes) : Bytes := pk

/-- Account (src/state_machine.rs): u64 balance and u64 nonce. -/
structure Account where
  balance : Nat
  nonce : Nat
deriving DecidableEq

/-- WorldState: the `HashMap<Address, Account>` embedded as an
association list with unique keys; `assocLookup` is the map read. -/
abbrev WorldState := List (Bytes × Account)

/-- HashMap get: the value stored at a key, if any. -/
def assocLookup {β : Type} : List (Bytes × β) → Bytes → Option β
  | [], _ => none
  | (k, w) :: rest, a => if k = a then some w else assocLookup rest a

/-- HashMap insert: replace the value at an existing key, else append. -/
def assocInsert {β : Type} : List (Bytes × β) → Bytes → β → List (Bytes × β)
  | [], a, v => [(a, v)]
  | (k, w) :: rest, a, v =>
      if k = a then (a, v) :: rest else (k, w) :: assocInsert rest a v

/-- Errors of the state machine (src/state_machine.rs). -/
inductive StateMachineError where
  | AccountNotFound (addr : Bytes)
  | InsufficientBalance (current required : Nat)
  | InvalidNonce (expected actual : Nat)
  | TransactionValidation (msg : String)
  | IncorrectNonce (expected actual : Nat)
deriving DecidableEq

/-- `StateMachine::validate_transaction_stateful`: sender account must
exist, have balance at least the amount, and nonce equal to the
transaction nonce. -/
def validate_transaction_stateful (w : WorldState) (tx : Transaction) :
    Except StateMachineError Unit :=
  let sender_address := address_from_public_key tx.sender
  match assocLookup w sender_address with
  | none => .error (.AccountNotFound sender_address)
  | some acc =>
      if acc.balance < tx.amount then
        .error (.InsufficientBalance acc.balance tx.amount)
      else if acc.nonce ≠ tx.nonce then
        .error (.InvalidNonce acc.nonce tx.nonce)
      else .ok ()

/-- `StateMachine::apply_transaction`: validate, then debit the sender
and bump its nonce, then credit the recipient, creating it with default
fields if absent. The Rust `-=`/`+=` are unchecked u64 operations: the
subtraction cannot underflow thanks to the balance pre-check, but the
balance credit and the nonce increment wrap modulo 2^64 (release-profile
semantics; a debug build would panic instead of returning an error). -/
def apply_transaction (w : WorldState) (tx : Transaction) :
    Except StateMachineError WorldState :=
  match validate_transaction_stateful w tx with
  | .error e => .error e
  | .ok _ =>
      let sender_address := address_from_public_key tx.sender
      let recipient_address := tx.recipient
      match assocLookup w sender_address with
      | none => .error (.AccountNotFound sender_address)
      | some s =>
          let w1 := assocInsert w sender_address
            ⟨s.balance - tx.amount, (s.nonce + 1) % u64Mod⟩
          match assocLookup w1 recipient_address with
          | some r => .ok (assocInsert w1 recipient_address
              ⟨(r.balance + tx.amount) % u64Mod, r.nonce⟩)
          | none => .ok (assocInsert w1 recipient_address
              ⟨(0 + tx.amount) % u64Mod, 0⟩)

/-- The transaction loop inside `apply_block`, threading the mutated
world state and stopping at the first error. -/
def applyTxs : WorldState → List Transaction → Except StateMachineError WorldState
  | w, [] => .ok w
  | w, tx :: rest =>
      match apply_transaction w tx with
      | .error e => .error e
      | .ok w2 => applyTxs w2 rest

/-- `StateMachine::apply_block`: snapshot the world state, apply the
transactions in order, and on the first failure restore the snapshot and
return the error. The pair is (returned Result, world state after the
call). -/
def apply_block (w : WorldState) (b : Block) :
    Except StateMachineError Unit × WorldState :=
  match applyTxs w b.transactions with
  | .ok w2 => (.ok (), w2)
  | .error e => (.error e, w)

/-- Modelled from the spec (refinement reference for the apply-block
claim): "apply transactions in order" as a left fold of
`apply_transaction` through `Except.bind`. -/
def applyInOrder (w : WorldState) (txs : List Transaction) :
    Except StateMachineError WorldState :=
  txs.foldl (fun acc tx => acc.bind (fun s => apply_transaction s tx)) (.ok w)

/-! ## Mempool (src/mempool.rs) -/

/-- Errors of the mempool (src/mempool.rs). -/
inductive MempoolError where
  | TransactionExists (id : Bytes)
  | PoolFull
  | StatelessValidationFailed
  | ZeroAmountTransaction
  | Internal (msg : String)
deriving DecidableEq

/-- MempoolInner: id-keyed transaction map plus FIFO queue of ids. -/
structure MempoolInner where
  transactions : List (Bytes × Transaction)
  pending_queue : List Bytes
deriving DecidableEq

/-- `Mempool::add_transaction`: compute the id; reject with `PoolFull`
when the queue is at capacity, then with `TransactionExists` on a
duplicate id, then with `ZeroAmountTransaction` when the amount is zero;
otherwise insert into the map and push the id onto the back of the
queue, returning the id. The pair is (returned Result, mempool state
after the call). -/
def add_transaction (max_transactions : Nat) (st : MempoolInner)
    (tx : Transaction) : Except MempoolError Bytes × MempoolInner :=
  let tx_id := tx.id
  if max_transactions ≤ st.pending_queue.length then (.error .PoolFull, st)
  else if (assocLookup st.transactions tx_id).isSome then
    (.error (.TransactionExists tx_id), st)
  else if tx.amount = 0 then (.error .ZeroAmountTransaction, st)
  else (.ok tx_id,
        ⟨assocInsert st.transactions tx_id tx, st.pending_queue ++ [tx_id]⟩)

/-- `Mempool::remove_transactions`: early-return on an empty id list;
remove each id from the map (`HashMap::remove` of the unique entry),
and retain in the queue exactly the hashes outside the removal set. -/
def remove_transactions (st : MempoolInner) (ids : List Bytes) : MempoolInner :=
  if ids.isEmpty then st
  else
    { transactions := ids.foldl (fun m h => m.filter (fun p => !(p.1 == h))) st.transactions,
      pending_queue := st.pending_queue.filter (fun h => !(ids.contains h)) }

/-! ## Consensus (src/consensus.rs) -/

/-- Errors of the consensus engine (src/consensus.rs). -/
inductive ConsensusError where
  | InvalidProposer (expected got : Bytes)
  | InvalidSignature
  | ProposerNotInValidatorSet
  | ForkChoiceError (msg : String)
  | GenesisBlockUndefined
  | InternalError (msg : String)
  | InvalidSignatureFormat
deriving DecidableEq

/-- `ConsensusEngine::get_proposer`: error on an empty validator set,
else `validators[height % len]` (the u64→usize cast is the identity on a
64-bit target). -/
def get_proposer (validators : List Bytes) (height : Nat) :
    Except ConsensusError Bytes :=
  if validators.isEmpty then .error .ProposerNotInValidatorSet
  else .ok (validators.getD (height % validators.length) [])

/-- Lexicographic strict order on byte strings: the derived `Ord` of the
32-byte `Hash` newtype. -/
def bytesLt : Bytes → Bytes → Bool
  | _, [] => false
  | [], _ :: _ => true
  | a :: as, b :: bs => if a < b then true else if b < a then false else bytesLt as bs

/-- `ConsensusEngine::fork_choice`: prefer the larger block number; on a
tie prefer the smaller header hash, the current head winning when the
hashes are not smaller (including equal hashes). -/
def fork_choice (current_head new_head : BlockHeader) : BlockHeader :=
  if current_head.block_number < new_head.block_number then new_head
  else if new_head.block_number = current_head.block_number then
    if bytesLt new_head.calculate_hash current_head.calculate_hash then new_head
    else current_head
  else current_head

/-! ## Sync request handling (src/main.rs, incoming-message handler) -/

/-- The sync replies a node can broadcast (src/main.rs NetworkMessage
variants relevant to the SyncRequest handler). -/
inductive SyncReply where
  | SyncResponseBlocks (blocks : List Block)
  | SyncResponseNoBlocks
deriving DecidableEq

/-- The storage state the SyncRequest handler reads: the meta chain tip
(hash and height) and the hash-keyed blocks column family. -/
structure NodeStorage where
  chain_tip : Option (Bytes × Nat)
  blocks : List (Bytes × Block)
deriving DecidableEq

/-- `Storage::get_block`: lookup by block hash. -/
def get_block (st : NodeStorage) (h : Bytes) : Option Block :=
  assocLookup st.blocks h

/-- The `NetworkMessage::SyncRequest { from_height, .. }` arm of the
incoming-message handler in src/main.rs: with no chain tip the node
logs and sends nothing (`continue`), modelled as `none`. Otherwise the
code computes an unused `end_height = min(current_height, from_height +
50 - 1)` bound and then — per its own TODO — pushes only the current
tip block when `from_height <= current_height`, replying
`SyncResponseNoBlocks` when the list stayed empty. -/
def handle_sync_request (st : NodeStorage) (from_height : Nat) : Option SyncReply :=
  match st.chain_tip with
  | none => none
  | some (current_tip_hash, current_height) =>
      let blocks_to_send : List Block :=
        if from_height ≤ current_height then
          match get_block st current_tip_hash with
          | some b => [b]
          | none => []
        else []
      some (if blocks_to_send.isEmpty then .SyncResponseNoBlocks
            else .SyncResponseBlocks blocks_to_send)

/-! ## Mempool operation sequences (for the consistency invariant) -/

/-- The two mempool mutators reachable from the node runtime. -/
inductive MempoolOp where
  | add (tx : Transaction)
  | remove (ids : List Bytes)

/-- Run one mempool operation, keeping only the resulting state. -/
def mempoolStep (max_transactions : Nat) (st : MempoolInner) :
    MempoolOp → MempoolInner
  | .add tx => (add_transaction max_transactions st tx).2
  | .remove ids => remove_transactions st ids

/-- Run a sequence of mempool operations from the empty mempool. -/
def mempoolRun (max_transactions : Nat) (ops : List MempoolOp) : MempoolInner :=
  ops.foldl (mempoolStep max_transactions) ⟨[], []⟩

/-! ## Concrete inputs used by witnesses and counterexamples -/

/-- A 32-byte sender public key / address. -/
def exAddrS : Bytes := List.replicate 32 1

/-- A 32-byte recipient address. -/
def exAddrR : Bytes := List.replicate 32 2

/-- A 64-byte all-zero signature. -/
def exSigA : Bytes := List.replicate 64 0

/-- A 64-byte signature differing from `exSigA` in its first byte. -/
def exSigB : Bytes := 1 :: List.replicate 63 0

/-- A plain valid-shaped transaction. -/
def exTx1 : Transaction := ⟨exAddrS, exAddrR, 5, 0, exSigA⟩

/-- The same payload as `exTx1` under a different signature. -/
def exTx1B : Transaction := ⟨exAddrS, exAddrR, 5, 0, exSigB⟩

/-- A zero-amount transaction. -/
def exTxZero : Transaction := ⟨exAddrS, exAddrR, 0, 0, exSigA⟩

/-- A generic block header used where a block wrapper is needed. -/
def exHeader : BlockHeader :=
  ⟨List.replicate 32 0, 1, 0, List.replicate 32 0, List.replicate 32 3, exSigA⟩

/-- A transaction whose credit overflows the recipient u64 balance. -/
def exOverflowTx : Transaction := ⟨exAddrS, exAddrR, 1, 0, exSigA⟩

/-- World state: the sender holds 1, the recipient already holds
u64::MAX, so any credit wraps. -/
def exOverflowState : WorldState :=
  [(exAddrS, ⟨1, 0⟩), (exAddrR, ⟨18446744073709551615, 0⟩)]

/-- Block carrying the overflowing transaction. -/
def exOverflowBlock : Block := ⟨exHeader, [exOverflowTx]⟩

/-- A 32-byte address used as both sender and recipient. -/
def exSelfAddr : Bytes := List.replicate 32 4

/-- A self-transfer whose nonce is u64::MAX. -/
def exSelfTx : Transaction :=
  ⟨exSelfAddr, exSelfAddr, 3, 18446744073709551615, exSigA⟩

/-- World state for the self-transfer: balance 5, nonce u64::MAX. -/
def exSelfState : WorldState := [(exSelfAddr, ⟨5, 18446744073709551615⟩)]

/-- An ordinary self-transfer (nonce 0) for the witness. -/
def exSelfTxW : Transaction := ⟨exSelfAddr, exSelfAddr, 4, 0, exSigA⟩

/-- Genesis-shaped header of the sync-scenario chain (height 0,
all-zero parent, empty-Merkle tx root, 64 zero signature bytes). -/
def exSyncHdr0 : BlockHeader :=
  ⟨List.replicate 32 0, 0, 0, sha256 [], List.replicate 32 3, exSigA⟩

/-- Height-1 header chaining to the genesis header hash. -/
def exSyncHdr1 : BlockHeader :=
  ⟨exSyncHdr0.calculate_hash, 1, 1, sha256 [], List.replicate 32 3, exSigA⟩

/-- Height-2 header chaining to the height-1 header hash. -/
def exSyncHdr2 : BlockHeader :=
  ⟨exSyncHdr1.calculate_hash, 2, 2, sha256 [], List.replicate 32 3, exSigA⟩

/-- The three stored empty blocks of the sync scenario. -/
def exSyncBlk0 : Block := ⟨exSyncHdr0, []⟩

/-- Block at height 1. -/
def exSyncBlk1 : Block := ⟨exSyncHdr1, []⟩

/-- Block at height 2, the chain tip. -/
def exSyncBlk2 : Block := ⟨exSyncHdr2, []⟩

/-- Storage holding the hash-keyed three-block chain with tip height 2. -/
def exSyncStorage : NodeStorage :=
  ⟨some (exSyncHdr2.calculate_hash, 2),
   [(exSyncHdr0.calculate_hash, exSyncBlk0),
    (exSyncHdr1.calculate_hash, exSyncBlk1),
    (exSyncHdr2.calculate_hash, exSyncBlk2)]⟩

/-- A header at height 7 signed with `exSigA`. -/
def exHdrSigA : BlockHeader :=
  ⟨List.replicate 32 0, 7, 0, List.replicate 32 0, List.replicate 32 3, exSigA⟩

/-- The same header content signed with `exSigB`: the header hash blanks
the signature, so its hash equals that of `exHdrSigA`. -/
def exHdrSigB : BlockHeader := { exHdrSigA with signature := exSigB }

/-- A header at height 8, distinct from `exHdrSigA` in block number. -/
def exHdrNum8 : BlockHeader := { exHdrSigA with block_number := 8 }

/-- A three-validator set of 32-byte public keys. -/
def exValidators : List Bytes :=
  [List.replicate 32 10, List.replicate 32 11, List.replicate 32 12]

/-- Mempool consistency invariant: queue ids are exactly the map keys in
arrival order, without duplicates, within capacity. -/
def MempoolInv (max_transactions : Nat) (st : MempoolInner) : Prop :=
  st.pending_queue = st.transactions.map Prod.fst
  ∧ st.pending_queue.Nodup
  ∧ st.pending_queue.length ≤ max_transactions

/-! ## Theorems -/

theorem sha256_empty_vector :
    sha256 [] = [0xe3, 0xb0, 0xc4, 0x42, 0x98, 0xfc, 0x1c, 0x14, 0x9a, 0xfb,
      0xf4, 0xc8, 0x99, 0x6f, 0xb9, 0x24, 0x27, 0xae, 0x41, 0xe4, 0x64, 0x9b,
      0x93, 0x4c, 0xa4, 0x95, 0x99, 0x1b, 0x78, 0x52, 0xb8, 0x55] := by decide

theorem sha256_abc_vector :
    sha256 [0x61, 0x62, 0x63] = [0xba, 0x78, 0x16, 0xbf, 0x8f, 0x01, 0xcf,
      0xea, 0x41, 0x41, 0x40, 0xde, 0x5d, 0xae, 0x22, 0x23, 0xb0, 0x03, 0x61,
      0xa3, 0x96, 0x17, 0x7a, 0x9c, 0xb4, 0x10, 0xff, 0x61, 0xf2, 0x00, 0x15,
      0xad] := by decide

/-- C8: for every non-empty validator set and height h, get_proposer
returns validators[h mod |validators|] and cycles with period
|validators|; for the empty set it fails with an error at every
height. -/
theorem c8_get_proposer_round_robin (validators : List Bytes) (height : Nat) :
    (validators ≠ [] →
       get_proposer validators height =
         .ok (validators.getD (height % validators.length) []) ∧
       get_proposer validators (height + validators.length) =
         get_proposer validators height)
  ∧ (validators = [] →
       get_proposer validators height = .error .ProposerNotInValidatorSet) := by
  constructor
  · intro hne
    have hfalse : validators.isEmpty = false := by
      cases validators with
      | nil => exact absurd rfl hne
      | cons a l => rfl
    constructor
    · simp [get_proposer, hfalse]
    · simp [get_proposer, hfalse, Nat.add_mod_right]
  · intro he
    subst he
    rfl

/-- Witness for C8 at a concrete three-validator set: height 5 picks the
third validator, height 8 repeats it, and the empty set errors. -/
theorem c8_get_proposer_round_robin_witness :
    get_proposer exValidators 5 = .ok (List.replicate 32 12)
  ∧ get_proposer exValidators 8 = get_proposer exValidators 5
  ∧ get_proposer [] 5 = .error .ProposerNotInValidatorSet := by
  refine ⟨?_, ?_, ?_⟩
  · exact ((c8_get_proposer_round_robin exValidators 5).1 (by decide)).1
  · exact ((c8_get_proposer_round_robin exValidators 5).1 (by decide)).2
  · exact (c8_get_proposer_round_robin [] 5).2 rfl

/-- C3: evidence against the overflow claim. At a world state whose
recipient already holds u64::MAX, a 1-unit credit makes
`apply_transaction` return success with the recipient balance wrapped to
0 modulo 2^64, and `apply_block` commits that wrapped state instead of
rejecting the block: the unchecked `+=` in the Rust code never produces
the error the spec requires (a debug build would panic instead). -/
theorem c3_overflow_wraps_instead_of_error :
    apply_transaction exOverflowState exOverflowTx =
      .ok [(exAddrS, ⟨0, 1⟩), (exAddrR, ⟨0, 0⟩)]
  ∧ apply_block exOverflowState exOverflowBlock =
      (.ok (), [(exAddrS, ⟨0, 1⟩), (exAddrR, ⟨0, 0⟩)]) := by decide

/-- C6: evidence against the sync claim. With blocks stored at heights
0, 1 and 2 (keyed by their header hashes, tip at height 2), a
SyncRequest from height 0 is answered with only the tip block, not the
contiguous run starting at from_height. -/
theorem c6_sync_request_sends_only_tip :
    handle_sync_request exSyncStorage 0 =
      some (.SyncResponseBlocks [exSyncBlk2])
  ∧ SyncReply.SyncResponseBlocks [exSyncBlk2] ≠
      .SyncResponseBlocks [exSyncBlk0, exSyncBlk1, exSyncBlk2] := by decide

theorem foldl_bind_error (txs : List Transaction) (e : StateMachineError) :
    txs.foldl
      (fun (acc : Except StateMachineError WorldState) tx =>
        acc.bind (fun s => apply_transaction s tx))
      (Except.error e) = Except.error e := by
  induction txs with
  | nil => rfl
  | cons t rest ih => exact ih

theorem applyInOrder_eq_applyTxs (txs : List Transaction) :
    ∀ w, applyInOrder w txs = applyTxs w txs := by
  induction txs with
  | nil => intro w; rfl
  | cons t rest ih =>
      intro w
      show rest.foldl
          (fun (acc : Except StateMachineError WorldState) tx =>
            acc.bind (fun s => apply_transaction s tx))
          ((Except.ok w).bind fun s => apply_transaction s t) =
        applyTxs w (t :: rest)
      cases h : apply_transaction w t with
      | ok w2 =>
          have hb : ((Except.ok w).bind fun s => apply_transaction s t) =
              Except.ok w2 := h
          rw [hb]
          have hfold : rest.foldl
              (fun (acc : Except StateMachineError WorldState) tx =>
                acc.bind (fun s => apply_transaction s tx))
              (Except.ok w2) = applyInOrder w2 rest := rfl
          rw [hfold, ih w2]
          simp [applyTxs, h]
      | error e =>
          have hb : ((Except.ok w).bind fun s => apply_transaction s t) =
              Except.error e := h
          rw [hb, foldl_bind_error]
          simp [applyTxs, h]

/-- C1: apply_block either returns an error and leaves the world state
bitwise identical to the pre-state, or returns success with the state
equal to the in-order sequential application of all the block's
transactions. -/
theorem c1_apply_block_atomic (w : WorldState) (b : Block) :
    (∀ e, (apply_block w b).1 = .error e → (apply_block w b).2 = w)
  ∧ ((apply_block w b).1 = .ok () →
       applyInOrder w b.transactions = .ok (apply_block w b).2) := by
  unfold apply_block
  cases h : applyTxs w b.transactions with
  | ok w2 =>
      refine ⟨?_, ?_⟩
      · intro e he
        simp at he
      · intro _
        simp only
        rw [applyInOrder_eq_applyTxs, h]
  | error e =>
      refine ⟨?_, ?_⟩
      · intro e' _
        rfl
      · intro hcontra
        simp at hcontra

/-- Witness for C1: a block whose transaction lacks a sender account
errors and leaves the empty state untouched; the same block from the
funded state succeeds and equals the in-order application. -/
theorem c1_apply_block_atomic_witness :
    (apply_block [] exOverflowBlock).2 = []
  ∧ applyInOrder exOverflowState exOverflowBlock.transactions =
      .ok (apply_block exOverflowState exOverflowBlock).2 := by
  constructor
  · exact (c1_apply_block_atomic [] exOverflowBlock).1
      (.AccountNotFound exAddrS) (by decide)
  · exact (c1_apply_block_atomic exOverflowState exOverflowBlock).2 (by decide)

/-- C4 counterexample: a zero-amount transaction offered to a full pool
fails with PoolFull, not with the ZeroAmount error the claim gives
precedence to (the code checks capacity first, then duplicates, then
the amount). -/
theorem c4_zero_amount_full_pool_gets_poolfull :
    exTxZero.amount = 0
  ∧ (add_transaction 1 (add_transaction 1 ⟨[], []⟩ exTx1).2 exTxZero).1 =
      .error .PoolFull
  ∧ (Except.error MempoolError.PoolFull : Except MempoolError Bytes) ≠
      .error .ZeroAmountTransaction := by decide

/-- C4 as amended: add_transaction fails with PoolFull when the pool is
at capacity, else with Duplicate when the id is present, else with
ZeroAmount when the amount is zero — precedence in that order — and
otherwise inserts into both the map and the FIFO queue and returns the
id. -/
theorem c4_add_transaction_precedence (cfg : Nat) (st : MempoolInner)
    (tx : Transaction) :
    (cfg ≤ st.pending_queue.length →
       add_transaction cfg st tx = (.error .PoolFull, st))
  ∧ (st.pending_queue.length < cfg →
       (assocLookup st.transactions tx.id).isSome = true →
       add_transaction cfg st tx = (.error (.TransactionExists tx.id), st))
  ∧ (st.pending_queue.length < cfg →
       (assocLookup st.transactions tx.id).isSome = false →
       tx.amount = 0 →
       add_transaction cfg st tx = (.error .ZeroAmountTransaction, st))
  ∧ (st.pending_queue.length < cfg →
       (assocLookup st.transactions tx.id).isSome = false →
       tx.amount ≠ 0 →
       add_transaction cfg st tx =
         (.ok tx.id,
          ⟨assocInsert st.transactions tx.id tx,
           st.pending_queue ++ [tx.id]⟩)) := by
  refine ⟨?_, ?_, ?_, ?_⟩
  · intro h1
    simp [add_transaction, h1]
  · intro h1 h2
    simp [add_transaction, Nat.not_le.mpr h1, h2]
  · intro h1 h2 h3
    simp [add_transaction, Nat.not_le.mpr h1, h2, h3]
  · intro h1 h2 h3
    simp [add_transaction, Nat.not_le.mpr h1, h2, h3]

/-- Witness for C4 as amended: adding a fresh nonzero transaction to an
empty pool of capacity 1000 succeeds and installs it in both
structures. -/
theorem c4_add_transaction_precedence_witness :
    add_transaction 1000 ⟨[], []⟩ exTx1 =
      (.ok exTx1.id, ⟨[(exTx1.id, exTx1)], [exTx1.id]⟩) :=
  (c4_add_transaction_precedence 1000 ⟨[], []⟩ exTx1).2.2.2
    (by decide) rfl (by decide)

theorem assocLookup_assocInsert_self {β : Type} (m : List (Bytes × β))
    (k : Bytes) (v : β) : assocLookup (assocInsert m k v) k = some v := by
  induction m with
  | nil => simp [assocInsert, assocLookup]
  | cons p rest ih =>
      obtain ⟨k2, v2⟩ := p
      by_cases h : k2 = k
      · simp [assocInsert, assocLookup, h]
      · simp [assocInsert, assocLookup, h, ih]

theorem assocInsert_assocInsert {β : Type} (m : List (Bytes × β))
    (k : Bytes) (v v2 : β) :
    assocInsert (assocInsert m k v) k v2 = assocInsert m k v2 := by
  induction m with
  | nil => simp [assocInsert]
  | cons p rest ih =>
      obtain ⟨k2, v3⟩ := p
      by_cases h : k2 = k
      · simp [assocInsert, h]
      · simp [assocInsert, h, ih]

/-- C9 counterexample: a self-transfer meeting every hypothesis of the
claim (account exists, balance at least the amount, matching nonce) but
whose nonce is u64::MAX succeeds with the nonce wrapped to 0 rather
than increased by exactly 1. -/
theorem c9_nonce_wraps_at_u64_max :
    assocLookup exSelfState (address_from_public_key exSelfTx.sender) =
      some ⟨5, 18446744073709551615⟩
  ∧ address_from_public_key exSelfTx.sender = exSelfTx.recipient
  ∧ exSelfTx.amount ≤ 5
  ∧ exSelfTx.nonce = 18446744073709551615
  ∧ apply_transaction exSelfState exSelfTx = .ok [(exSelfAddr, ⟨5, 0⟩)]
  ∧ (0 : Nat) ≠ 18446744073709551615 + 1 := by decide

/-- C9 as amended: a self-transfer whose sender account exists with a
representable balance at least the amount and nonce equal to the
transaction nonce succeeds, leaves the balance unchanged (debit and
credit cancel), and sets the nonce to (old + 1) mod 2^64 — an increase
by exactly 1 whenever the old nonce is below u64::MAX (release-profile
wrapping; a debug build would panic at u64::MAX). -/
theorem c9_self_transfer (w : WorldState) (tx : Transaction) (acc : Account)
    (hacc : assocLookup w (address_from_public_key tx.sender) = some acc)
    (hself : address_from_public_key tx.sender = tx.recipient)
    (hbal : tx.amount ≤ acc.balance)
    (hrep : acc.balance < u64Mod)
    (hnonce : acc.nonce = tx.nonce) :
    apply_transaction w tx =
      .ok (assocInsert w tx.recipient ⟨acc.balance, (acc.nonce + 1) % u64Mod⟩) := by
  have hnlt : ¬ acc.balance < tx.amount := Nat.not_lt.mpr hbal
  unfold apply_transaction validate_transaction_stateful
  rw [hself] at hacc ⊢
  simp only [hacc, hnlt, if_false, hnonce, ne_eq, not_true_eq_false, ite_false,
    if_neg, reduceIte, assocLookup_assocInsert_self]
  rw [assocInsert_assocInsert, Nat.sub_add_cancel hbal, Nat.mod_eq_of_lt hrep]

/-- Witness for C9 as amended: an ordinary self-transfer of 4 out of 10
at nonce 0 keeps the balance at 10 and moves the nonce to 1. -/
theorem c9_self_transfer_witness :
    apply_transaction [(exSelfAddr, ⟨10, 0⟩)] exSelfTxW =
      .ok [(exSelfAddr, ⟨10, 1⟩)] := by
  have h := c9_self_transfer [(exSelfAddr, ⟨10, 0⟩)] exSelfTxW ⟨10, 0⟩
    (by decide) rfl (by decide) (by decide) rfl
  exact h

theorem foldl_filter_contains {β : Type} (ids : List Bytes) :
    ∀ m : List (Bytes × β),
      ids.foldl (fun m2 h => m2.filter (fun p => !(p.1 == h))) m =
        m.filter (fun p => !(ids.contains p.1)) := by
  induction ids with
  | nil => intro m; simp
  | cons i rest ih =>
      intro m
      rw [List.foldl_cons, ih, List.filter_filter]
      apply List.filter_congr
      intro p _
      have hb : (p.1 == i) = decide (p.1 = i) := by
        by_cases hpi : p.1 = i
        · simp [hpi]
        · simp [hpi]
      rw [hb]
      simp [List.contains_cons, Bool.and_comm]

theorem map_fst_filter {β : Type} (p : Bytes → Bool) (m : List (Bytes × β)) :
    (m.filter (fun q => p q.1)).map Prod.fst = (m.map Prod.fst).filter p := by
  induction m with
  | nil => rfl
  | cons q rest ih => cases hp : p q.1 <;> simp [hp, ih]

theorem assocLookup_eq_none {β : Type} (m : List (Bytes × β)) (k : Bytes) :
    assocLookup m k = none ↔ k ∉ m.map Prod.fst := by
  induction m with
  | nil => simp [assocLookup]
  | cons q rest ih =>
      obtain ⟨k2, v⟩ := q
      by_cases h : k2 = k
      · subst h
        simp [assocLookup]
      · have h2 : ¬ k = k2 := fun e => h e.symm
        simp [assocLookup, h, h2, ih]

theorem assocInsert_of_not_mem {β : Type} (m : List (Bytes × β)) (k : Bytes)
    (v : β) (h : k ∉ m.map Prod.fst) : assocInsert m k v = m ++ [(k, v)] := by
  induction m with
  | nil => rfl
  | cons q rest ih =>
      obtain ⟨k2, v2⟩ := q
      simp only [List.map_cons, List.mem_cons] at h
      push_neg at h
      have hne : ¬ k2 = k := fun e => h.1 e.symm
      simp [assocInsert, hne, ih h.2]

theorem mempool_step_preserves (cfg : Nat) (st : MempoolInner)
    (op : MempoolOp) (h : MempoolInv cfg st) :
    MempoolInv cfg (mempoolStep cfg st op) := by
  obtain ⟨halign, hnodup, hlen⟩ := h
  cases op with
  | add tx =>
      show MempoolInv cfg (add_transaction cfg st tx).2
      by_cases h1 : cfg ≤ st.pending_queue.length
      · have hst : (add_transaction cfg st tx).2 = st := by
          simp [add_transaction, h1]
        rw [hst]
        exact ⟨halign, hnodup, hlen⟩
      · by_cases h2 : (assocLookup st.transactions tx.id).isSome = true
        · have hst : (add_transaction cfg st tx).2 = st := by
            simp [add_transaction, h1, h2]
          rw [hst]
          exact ⟨halign, hnodup, hlen⟩
        · by_cases h3 : tx.amount = 0
          · have hst : (add_transaction cfg st tx).2 = st := by
              simp [add_transaction, h1, h2, h3]
            rw [hst]
            exact ⟨halign, hnodup, hlen⟩
          · have hnone : assocLookup st.transactions tx.id = none := by
              cases hcase : assocLookup st.transactions tx.id with
              | none => rfl
              | some v => rw [hcase] at h2; simp at h2
            have hnotmem : tx.id ∉ st.transactions.map Prod.fst :=
              (assocLookup_eq_none _ _).mp hnone
            have hq : tx.id ∉ st.pending_queue := halign ▸ hnotmem
            have hst : (add_transaction cfg st tx).2 =
                ⟨assocInsert st.transactions tx.id tx,
                 st.pending_queue ++ [tx.id]⟩ := by
              simp [add_transaction, h1, h2, h3]
            rw [hst]
            refine ⟨?_, ?_, ?_⟩
            · show st.pending_queue ++ [tx.id] =
                (assocInsert st.transactions tx.id tx).map Prod.fst
              rw [assocInsert_of_not_mem _ _ _ hnotmem, List.map_append, halign]
              rfl
            · show (st.pending_queue ++ [tx.id]).Nodup
              rw [← List.concat_eq_append]
              exact hnodup.concat hq
            · show (st.pending_queue ++ [tx.id]).length ≤ cfg
              have hlt := Nat.not_le.mp h1
              simp only [List.length_append, List.length_cons, List.length_nil]
              omega
  | remove ids =>
      show MempoolInv cfg (remove_transactions st ids)
      by_cases hids : ids.isEmpty
      · have hst : remove_transactions st ids = st := by
          simp [remove_transactions, hids]
        rw [hst]
        exact ⟨halign, hnodup, hlen⟩
      · have hst : remove_transactions st ids =
            ⟨ids.foldl (fun m2 h => m2.filter (fun p => !(p.1 == h)))
               st.transactions,
             st.pending_queue.filter (fun h => !(ids.contains h))⟩ := by
          simp [remove_transactions, hids]
        rw [hst]
        refine ⟨?_, ?_, ?_⟩
        · show st.pending_queue.filter (fun h => !(ids.contains h)) =
            (ids.foldl (fun m2 h => m2.filter (fun p => !(p.1 == h)))
              st.transactions).map Prod.fst
          rw [foldl_filter_contains,
            map_fst_filter (fun k => !(ids.contains k)) st.transactions, halign]
        · exact hnodup.filter _
        · exact le_trans (List.length_filter_le _ _) hlen

/-- C10: from the empty mempool, after any sequence of add_transaction
and remove_transactions calls, the queued ids coincide with the map
keys, the queue holds no duplicate id, and the pending count never
exceeds the configured capacity. -/
theorem c10_mempool_consistency (cfg : Nat) (ops : List MempoolOp) :
    (∀ h, h ∈ (mempoolRun cfg ops).pending_queue ↔
        h ∈ (mempoolRun cfg ops).transactions.map Prod.fst)
  ∧ (mempoolRun cfg ops).pending_queue.Nodup
  ∧ (mempoolRun cfg ops).pending_queue.length ≤ cfg := by
  have key : MempoolInv cfg (mempoolRun cfg ops) := by
    have hgen : ∀ st, MempoolInv cfg st →
        MempoolInv cfg (ops.foldl (mempoolStep cfg) st) := by
      induction ops with
      | nil => intro st hst; exact hst
      | cons op rest ih =>
          intro st hst
          exact ih _ (mempool_step_preserves cfg st op hst)
    exact hgen ⟨[], []⟩ ⟨rfl, List.nodup_nil, Nat.zero_le _⟩
  exact ⟨fun h => by rw [key.1], key.2.1, key.2.2⟩

theorem bytesLt_irrefl : ∀ x : Bytes, bytesLt x x = false
  | [] => rfl
  | a :: as => by simp [bytesLt, bytesLt_irrefl as]

theorem bytesLt_asymm : ∀ x y : Bytes, bytesLt x y = true → bytesLt y x = false
  | [], [] => by simp [bytesLt]
  | [], _ :: _ => fun _ => rfl
  | _ :: _, [] => by simp [bytesLt]
  | a :: as, b :: bs => by
      by_cases h1 : a < b
      · intro _
        simp [bytesLt, h1, Nat.lt_asymm h1]
      · by_cases h2 : b < a
        · intro h
          simp [bytesLt, h1, h2] at h
        · intro h
          have hrec := bytesLt_asymm as bs (by simpa [bytesLt, h1, h2] using h)
          simp [bytesLt, h1, h2, hrec]

theorem bytesLt_antisymm :
    ∀ x y : Bytes, bytesLt x y = false → bytesLt y x = false → x = y
  | [], [] => fun _ _ => rfl
  | [], _ :: _ => by simp [bytesLt]
  | _ :: _, [] => by simp [bytesLt]
  | a :: as, b :: bs => by
      by_cases h1 : a < b
      · simp [bytesLt, h1]
      · by_cases h2 : b < a
        · simp [bytesLt, h1, h2]
        · intro hxy hyx
          have hab : a = b :=
            Nat.le_antisymm (Nat.not_lt.mp h2) (Nat.not_lt.mp h1)
          have htail := bytesLt_antisymm as bs
            (by simpa [bytesLt, h1, h2] using hxy)
            (by simpa [bytesLt, h1, h2] using hyx)
          rw [hab, htail]

/-- C7 counterexample: two distinct headers that differ only in their
signature share a header hash (the hash blanks the signature), and at
equal height with equal hashes fork_choice keeps its first argument, so
it is not symmetric on that pair. -/
theorem c7_fork_choice_asymmetric_on_equal_hash :
    fork_choice exHdrSigA exHdrSigB = exHdrSigA
  ∧ fork_choice exHdrSigB exHdrSigA = exHdrSigB
  ∧ exHdrSigA ≠ exHdrSigB
  ∧ exHdrSigA.calculate_hash = exHdrSigB.calculate_hash := by decide

/-- C7 as amended: fork_choice returns the header with the larger block
number, and on equal block numbers a header whose hash is
lexicographically smaller; it is symmetric on every pair whose header
hashes differ (or which is a pair of equal headers) — headers at equal
height with equal hashes (e.g. differing only in signature) fall to the
first argument. -/
theorem c7_fork_choice_properties (a b : BlockHeader)
    (hcoll : a.calculate_hash = b.calculate_hash → a = b) :
    (fork_choice a b).block_number = max a.block_number b.block_number
  ∧ (a.block_number = b.block_number →
       (fork_choice a b = a ∨ fork_choice a b = b)
       ∧ bytesLt a.calculate_hash (fork_choice a b).calculate_hash = false
       ∧ bytesLt b.calculate_hash (fork_choice a b).calculate_hash = false)
  ∧ fork_choice a b = fork_choice b a := by
  rcases Nat.lt_trichotomy a.block_number b.block_number with h | h | h
  · have hfab : fork_choice a b = b := by
      unfold fork_choice
      rw [if_pos h]
    have hfba : fork_choice b a = b := by
      unfold fork_choice
      rw [if_neg (Nat.lt_asymm h),
        if_neg (by omega : ¬ a.block_number = b.block_number)]
    exact ⟨by rw [hfab]; exact (Nat.max_eq_right (Nat.le_of_lt h)).symm,
      fun he => absurd he (by omega), by rw [hfab, hfba]⟩
  · have h1 : ¬ a.block_number < b.block_number := by omega
    have h2 : ¬ b.block_number < a.block_number := by omega
    by_cases hba : bytesLt b.calculate_hash a.calculate_hash = true
    · have hab : bytesLt a.calculate_hash b.calculate_hash = false :=
        bytesLt_asymm _ _ hba
      have hfab : fork_choice a b = b := by
        unfold fork_choice
        rw [if_neg h1, if_pos h.symm, if_pos hba]
      have hfba : fork_choice b a = b := by
        unfold fork_choice
        rw [if_neg h2, if_pos h, if_neg (by simp [hab])]
      exact ⟨by rw [hfab, h, Nat.max_self],
        fun _ => ⟨Or.inr hfab, by rw [hfab]; exact hab,
          by rw [hfab]; exact bytesLt_irrefl _⟩,
        by rw [hfab, hfba]⟩
    · have hba2 : bytesLt b.calculate_hash a.calculate_hash = false := by
        cases hcase : bytesLt b.calculate_hash a.calculate_hash with
        | false => rfl
        | true => exact absurd hcase hba
      by_cases hab : bytesLt a.calculate_hash b.calculate_hash = true
      · have hfab : fork_choice a b = a := by
          unfold fork_choice
          rw [if_neg h1, if_pos h.symm, if_neg (by simp [hba2])]
        have hfba : fork_choice b a = a := by
          unfold fork_choice
          rw [if_neg h2, if_pos h, if_pos hab]
        exact ⟨by rw [hfab, h, Nat.max_self],
          fun _ => ⟨Or.inl hfab, by rw [hfab]; exact bytesLt_irrefl _,
            by rw [hfab]; exact hba2⟩,
          by rw [hfab, hfba]⟩
      · have hab2 : bytesLt a.calculate_hash b.calculate_hash = false := by
          cases hcase : bytesLt a.calculate_hash b.calculate_hash with
          | false => rfl
          | true => exact absurd hcase hab
        have heq : a = b := hcoll (bytesLt_antisymm _ _ hab2 hba2)
        subst heq
        have hfaa : fork_choice a a = a := by
          unfold fork_choice
          rw [if_neg (lt_irrefl a.block_number), if_pos rfl,
            if_neg (by simp [bytesLt_irrefl])]
        exact ⟨by rw [hfaa, Nat.max_self],
          fun _ => ⟨Or.inl hfaa, by rw [hfaa]; exact bytesLt_irrefl _,
            by rw [hfaa]; exact bytesLt_irrefl _⟩,
          rfl⟩
  · have hfab : fork_choice a b = a := by
      unfold fork_choice
      rw [if_neg (Nat.lt_asymm h),
        if_neg (by omega : ¬ b.block_number = a.block_number)]
    have hfba : fork_choice b a = a := by
      unfold fork_choice
      rw [if_pos h]
    exact ⟨by rw [hfab]; exact (Nat.max_eq_left (Nat.le_of_lt h)).symm,
      fun he => absurd he (by omega), by rw [hfab, hfba]⟩

/-- Witness for C7 as amended at two headers of heights 7 and 8 with
distinct hashes: the height-8 header wins from both sides. -/
theorem c7_fork_choice_properties_witness :
    (fork_choice exHdrSigA exHdrNum8).block_number = 8
  ∧ fork_choice exHdrSigA exHdrNum8 = fork_choice exHdrNum8 exHdrSigA := by
  have h := c7_fork_choice_properties exHdrSigA exHdrNum8 (by decide)
  exact ⟨h.1, h.2.2⟩

/-- C2 counterexample: two transactions with identical payload fields
but different signatures have different IDs, and the ID differs from
the signing-target hash — `Transaction::id` hashes the signature too. -/
theorem c2_id_depends_on_signature :
    exTx1.sender = exTx1B.sender ∧ exTx1.recipient = exTx1B.recipient
  ∧ exTx1.amount = exTx1B.amount ∧ exTx1.nonce = exTx1B.nonce
  ∧ exTx1.signature ≠ exTx1B.signature
  ∧ Transaction.id exTx1 ≠ Transaction.id exTx1B
  ∧ Transaction.id exTx1 ≠ Transaction.data_to_sign_hash exTx1 := by decide

/-- C2 as amended: the transaction ID is the SHA-256 of the canonical
encoding of the full transaction — signature included — while the
signing target data_to_sign_hash is the SHA-256 of the encoding of
(sender, recipient, amount, nonce) only; hence the signing target (not
the ID) is identical across transactions that differ only in their
signature. -/
theorem c2_transaction_id_includes_signature (t1 t2 : Transaction)
    (hs : t1.sender = t2.sender) (hr : t1.recipient = t2.recipient)
    (ha : t1.amount = t2.amount) (hn : t1.nonce = t2.nonce) :
    Transaction.data_to_sign_hash t1 = Transaction.data_to_sign_hash t2
  ∧ Transaction.id t1 =
      sha256 (encodeSignablePayload t1 ++
        (varint t1.signature.length ++ t1.signature))
  ∧ Transaction.data_to_sign_hash t1 = sha256 (encodeSignablePayload t1) := by
  refine ⟨?_, ?_, rfl⟩
  · unfold Transaction.data_to_sign_hash encodeSignablePayload
    rw [hs, hr, ha, hn]
  · unfold Transaction.id encodeTransaction encodeSignablePayload
    simp [List.append_assoc]

/-- Witness for C2 as amended: the signing hashes of the two concrete
transactions differing only in signature agree. -/
theorem c2_transaction_id_includes_signature_witness :
    Transaction.data_to_sign_hash exTx1 = Transaction.data_to_sign_hash exTx1B :=
  (c2_transaction_id_includes_signature exTx1 exTx1B rfl rfl rfl rfl).1

theorem merkleLoop_short (f : Nat) (l : List Bytes) (h : l.length ≤ 1) :
    merkleLoop f l = l := by
  cases f with
  | zero => rfl
  | succ f =>
      simp only [merkleLoop]
      rw [if_neg (by omega : ¬ 1 < l.length)]

theorem merkleSpecLoop_short (f : Nat) (l : List Bytes) (h : l.length ≤ 1) :
    merkleSpecLoop f l = l := by
  cases f with
  | zero => rfl
  | succ f =>
      simp only [merkleSpecLoop]
      rw [if_neg (by omega : ¬ 1 < l.length)]

theorem merkleLoop_succ (f : Nat) (l : List Bytes) (h : 1 < l.length) :
    merkleLoop (f + 1) l =
      merkleLoop f
        (if (chunkPairs l).length % 2 ≠ 0 ∧ 1 < (chunkPairs l).length
         then padLast (chunkPairs l) else chunkPairs l) := by
  simp only [merkleLoop]
  rw [if_pos h]

theorem merkleSpecLoop_succ (f : Nat) (l : List Bytes) (h : 1 < l.length) :
    merkleSpecLoop (f + 1) l =
      merkleSpecLoop f
        (chunkPairs (if l.length % 2 ≠ 0 then padLast l else l)) := by
  simp only [merkleSpecLoop]
  rw [if_pos h]

theorem chunkPairs_length : ∀ l : List Bytes, (chunkPairs l).length = l.length / 2
  | [] => by simp [chunkPairs]
  | [_] => by simp [chunkPairs]
  | x :: y :: rest => by
      show (sha256 (x ++ y) :: chunkPairs rest).length = (x :: y :: rest).length / 2
      simp only [List.length_cons, chunkPairs_length rest]
      omega

theorem padLast_length (l : List Bytes) : (padLast l).length = l.length + 1 := by
  simp [padLast]

theorem merkleSpecLoop_fuel : ∀ (f g : Nat) (l : List Bytes),
    l.length ≤ f → f ≤ g → merkleSpecLoop g l = merkleSpecLoop f l := by
  intro f
  induction f with
  | zero =>
      intro g l hf _
      rw [merkleSpecLoop_short g l (by omega), merkleSpecLoop_short 0 l (by omega)]
  | succ f ih =>
      intro g l hf hfg
      by_cases hs : l.length ≤ 1
      · rw [merkleSpecLoop_short g l hs, merkleSpecLoop_short (f + 1) l hs]
      · obtain ⟨g2, rfl⟩ : ∃ g2, g = g2 + 1 := ⟨g - 1, by omega⟩
        rw [merkleSpecLoop_succ g2 l (by omega), merkleSpecLoop_succ f l (by omega)]
        have hlen2 :
            (chunkPairs (if l.length % 2 ≠ 0 then padLast l else l)).length ≤ f := by
          by_cases hodd : l.length % 2 = 0
          · rw [if_neg (by omega), chunkPairs_length]
            omega
          · rw [if_pos (by omega), chunkPairs_length, padLast_length]
            omega
        exact ih g2 _ hlen2 (by omega)

theorem merkleSpecLoop_len_one : ∀ (f : Nat) (l : List Bytes),
    1 ≤ l.length → l.length ≤ f + 1 → (merkleSpecLoop f l).length = 1 := by
  intro f
  induction f with
  | zero =>
      intro l h1 h2
      have : merkleSpecLoop 0 l = l := rfl
      rw [this]
      omega
  | succ f ih =>
      intro l h1 h2
      by_cases hs : l.length ≤ 1
      · rw [merkleSpecLoop_short (f + 1) l hs]
        omega
      · rw [merkleSpecLoop_succ f l (by omega)]
        apply ih
        · by_cases hodd : l.length % 2 = 0
          · rw [if_neg (by omega), chunkPairs_length]
            omega
          · rw [if_pos (by omega), chunkPairs_length, padLast_length]
            omega
        · by_cases hodd : l.length % 2 = 0
          · rw [if_neg (by omega), chunkPairs_length]
            omega
          · rw [if_pos (by omega), chunkPairs_length, padLast_length]
            omega

theorem merkleLoop_eq_specLoop : ∀ (f : Nat) (l : List Bytes),
    2 ≤ l.length → l.length ≤ f → l.length % 2 = 0 →
    merkleLoop f l = merkleSpecLoop f l := by
  intro f
  induction f with
  | zero =>
      intro l h2 hf _
      exact absurd hf (by omega)
  | succ f ih =>
      intro l h2 hf heven
      have h1 : 1 < l.length := by omega
      rw [merkleLoop_succ f l h1, merkleSpecLoop_succ f l h1,
        if_neg (by omega : ¬ l.length % 2 ≠ 0)]
      have hclen : (chunkPairs l).length = l.length / 2 := chunkPairs_length l
      by_cases hcase1 : (chunkPairs l).length = 1
      · rw [if_neg (fun hc => absurd hc.2 (by omega))]
        rw [merkleLoop_short f _ (by omega), merkleSpecLoop_short f _ (by omega)]
      · have hc2 : 2 ≤ (chunkPairs l).length := by omega
        by_cases hodd : (chunkPairs l).length % 2 = 0
        · rw [if_neg (fun hc => absurd hc.1 (by simp [hodd]))]
          exact ih (chunkPairs l) hc2 (by omega) hodd
        · rw [if_pos ⟨by omega, by omega⟩]
          have hplen : (padLast (chunkPairs l)).length = (chunkPairs l).length + 1 :=
            padLast_length _
          have hlhs := ih (padLast (chunkPairs l)) (by omega) (by omega) (by omega)
          rw [hlhs]
          obtain ⟨f2, rfl⟩ : ∃ f2, f = f2 + 1 := ⟨f - 1, by omega⟩
          rw [merkleSpecLoop_succ f2 (padLast (chunkPairs l)) (by omega),
            merkleSpecLoop_succ f2 (chunkPairs l) (by omega),
            if_neg (by omega : ¬ (padLast (chunkPairs l)).length % 2 ≠ 0),
            if_pos (by omega : (chunkPairs l).length % 2 ≠ 0)]

theorem merkle_code_eq_spec_ge2 (txs : List Transaction)
    (h2 : 2 ≤ txs.length) :
    calculate_merkle_root txs = merkle_root_spec txs := by
  have hm : (txs.map Transaction.id).length = txs.length := List.length_map _ _
  have hne : ¬ (txs.isEmpty = true) := by
    cases txs with
    | nil => exact absurd h2 (by simp)
    | cons t rest => simp
  have hne2 : ¬ ((txs.map Transaction.id).isEmpty = true) := by
    cases txs with
    | nil => exact absurd h2 (by simp)
    | cons t rest => simp
  have hlen1 : ¬ ((txs.map Transaction.id).length = 1) := by omega
  simp only [calculate_merkle_root, merkle_root_spec]
  rw [if_neg hne, if_neg hne2, if_neg hlen1, if_neg hlen1]
  by_cases hodd : (txs.map Transaction.id).length % 2 = 0
  · rw [if_neg (by omega : ¬ (txs.map Transaction.id).length % 2 ≠ 0)]
    rw [merkleLoop_eq_specLoop (txs.map Transaction.id).length
      (txs.map Transaction.id) (by omega) le_rfl hodd]
    have hone := merkleSpecLoop_len_one (txs.map Transaction.id).length
      (txs.map Transaction.id) (by omega) (by omega)
    obtain ⟨z, hz⟩ := List.length_eq_one.mp hone
    rw [hz]
    rfl
  · rw [if_pos (by omega : (txs.map Transaction.id).length % 2 ≠ 0)]
    have hpad : (padLast (txs.map Transaction.id)).length =
        (txs.map Transaction.id).length + 1 := padLast_length _
    rw [merkleLoop_eq_specLoop (padLast (txs.map Transaction.id)).length
      (padLast (txs.map Transaction.id)) (by omega) le_rfl (by omega)]
    obtain ⟨n2, hn2⟩ : ∃ n2, (txs.map Transaction.id).length = n2 + 1 :=
      ⟨(txs.map Transaction.id).length - 1, by omega⟩
    rw [hpad, hn2]
    rw [merkleSpecLoop_succ (n2 + 1) (padLast (txs.map Transaction.id))
        (by rw [padLast_length]; omega),
      merkleSpecLoop_succ n2 (txs.map Transaction.id) (by omega),
      if_neg (by rw [padLast_length]; omega :
        ¬ (padLast (txs.map Transaction.id)).length % 2 ≠ 0),
      if_pos (by omega : (txs.map Transaction.id).length % 2 ≠ 0)]
    rw [merkleSpecLoop_fuel n2 (n2 + 1)
      (chunkPairs (padLast (txs.map Transaction.id)))
      (by rw [chunkPairs_length, padLast_length]; omega) (by omega)]
    have hone := merkleSpecLoop_len_one n2
      (chunkPairs (padLast (txs.map Transaction.id)))
      (by rw [chunkPairs_length, padLast_length]; omega)
      (by rw [chunkPairs_length, padLast_length]; omega)
    obtain ⟨z, hz⟩ := List.length_eq_one.mp hone
    rw [hz]
    rfl

/-- C5: calculate_merkle_root returns SHA-256 of the empty string for no
transactions, SHA-256(id ‖ id) for one transaction, H(H(a‖b) ‖ H(c‖c))
for three, and in general equals the spec-worded repeated pair-wise
hashing with last-element duplication at odd levels. -/
theorem c5_merkle_root (txs : List Transaction) (a b c : Transaction) :
    calculate_merkle_root [] = sha256 []
  ∧ calculate_merkle_root [a] = sha256 (a.id ++ a.id)
  ∧ calculate_merkle_root [a, b, c] =
      sha256 (sha256 (a.id ++ b.id) ++ sha256 (c.id ++ c.id))
  ∧ calculate_merkle_root txs = merkle_root_spec txs := by
  refine ⟨rfl, ?_, ?_, ?_⟩
  · simp [calculate_merkle_root]
  · simp [calculate_merkle_root, merkleLoop, chunkPairs, padLast]
  · match txs with
    | [] => rfl
    | [t] => simp [calculate_merkle_root, merkle_root_spec]
    | t1 :: t2 :: rest =>
        exact merkle_code_eq_spec_ge2 _ (by simp [List.length_cons])

end RustChain
